import Mathlib

/-!
Shallow embedding of the DNA sequence converter library
(src/src/bioUtils.js and the unnamed module extending it with
parseFASTA / findStopCodons), together with theorems settling the
specification claims. JavaScript strings are modelled as Lean
`String` / `List Char`; JS objects used as finite maps are modelled
as association lists in source order.
-/

namespace Bio

/-- The `CODON_TABLE` object literal from bioUtils.js, in source order.
The source literal writes the key `GUG` twice (row `'GUU': 'V', 'GUG': 'V',
'GUA': 'V', 'GUG': 'V'`) and never writes `GUC`; the list reproduces this
verbatim. -/
def CODON_TABLE : List (String × String) :=
  [("UUU", "F"), ("UUC", "F"), ("UUA", "L"), ("UUG", "L"),
   ("UCU", "S"), ("UCC", "S"), ("UCA", "S"), ("UCG", "S"),
   ("UAU", "Y"), ("UAC", "Y"), ("UAA", "*"), ("UAG", "*"),
   ("UGU", "C"), ("UGC", "C"), ("UGA", "*"), ("UGG", "W"),
   ("CUU", "L"), ("CUC", "L"), ("CUA", "L"), ("CUG", "L"),
   ("CCU", "P"), ("CCC", "P"), ("CCA", "P"), ("CCG", "P"),
   ("CAU", "H"), ("CAC", "H"), ("CAA", "Q"), ("CAG", "Q"),
   ("CGU", "R"), ("CGC", "R"), ("CGA", "R"), ("CGG", "R"),
   ("AUU", "I"), ("AUC", "I"), ("AUA", "I"), ("AUG", "M"),
   ("ACU", "T"), ("ACC", "T"), ("ACA", "T"), ("ACG", "T"),
   ("AAU", "N"), ("AAC", "N"), ("AAA", "K"), ("AAG", "K"),
   ("AGU", "S"), ("AGC", "S"), ("AGA", "R"), ("AGG", "R"),
   ("GUU", "V"), ("GUG", "V"), ("GUA", "V"), ("GUG", "V"),
   ("GCU", "A"), ("GCC", "A"), ("GCA", "A"), ("GCG", "A"),
   ("GAU", "D"), ("GAC", "D"), ("GAA", "E"), ("GAG", "E"),
   ("GGU", "G"), ("GGC", "G"), ("GGA", "G"), ("GGG", "G")]

/-- `CODON_TABLE[codon]` property access. In a JS object literal a later
duplicate key overwrites an earlier one, so lookup is last-occurrence-wins:
we look the key up in the reversed list. -/
def codonLookup (codon : String) : Option String :=
  (CODON_TABLE.reverse).lookup codon

/-- `STOP_CODONS` constant from bioUtils.js. -/
def STOP_CODONS : List String := ["UAA", "UAG", "UGA"]

/-- `START_CODON` constant from bioUtils.js. -/
def START_CODON : String := "AUG"

/-- One character of JS `toUpperCase()`, modelled per character. -/
def jsToUpper (c : Char) : Char := c.toUpper

/-- The character class `[ATGC]` of the regex in `validateSequence`. -/
def isACGTChar (c : Char) : Bool := c = 'A' || c = 'T' || c = 'G' || c = 'C'

/-- `validateSequence`: uppercase, then delete every character outside
`[ATGC]` (the regex replace with the empty string). -/
def validateSequence (s : String) : String :=
  String.mk ((s.data.map jsToUpper).filter isACGTChar)

/-- The base-complement map of `getComplement`. An unmapped base yields
`undefined` in JS, which `Array.prototype.join('')` renders as the empty
string, hence the `""` default. -/
def complementBase (c : Char) : String :=
  if c = 'A' then "T"
  else if c = 'T' then "A"
  else if c = 'G' then "C"
  else if c = 'C' then "G"
  else ""

/-- `getComplement`: `dna.split('').map(base => complement[base]).join('')`.
Joining the per-character strings with the empty separator is the
concatenation of their character lists. -/
def getComplement (dna : String) : String :=
  String.mk (dna.data.flatMap (fun c => (complementBase c).data))

/-- The loop body of `translate`: consume the RNA three characters at a
time (`i < rna.length - 2`, step 3); break on an amino acid `"*"`, skip a
codon absent from the table, otherwise append the amino acid. Returns the
accumulated protein characters. -/
def translateLoop : List Char → List Char
  | a :: b :: c :: rest =>
    match codonLookup (String.mk [a, b, c]) with
    | some aa => if aa = "*" then [] else aa.data ++ translateLoop rest
    | none => translateLoop rest
  | _ => []

/-- `translate`: run the codon loop, then `protein || 'No protein found'`
(the empty string is falsy in JS). -/
def translate (rna : String) : String :=
  let protein := String.mk (translateLoop rna.data)
  if protein = "" then "No protein found" else protein

/-- Whether some non-overlapping triplet of the list looks up to the stop
symbol `"*"` in the codon table. -/
def hasStopTriplet : List Char → Bool
  | a :: b :: c :: rest =>
    codonLookup (String.mk [a, b, c]) == some "*" || hasStopTriplet rest
  | _ => false

/-- The mutable counts object of `countNucleotides` before key deletion. -/
structure NucCounts where
  A : Nat
  T : Nat
  G : Nat
  C : Nat
  U : Nat
deriving Repr, DecidableEq

/-- One iteration of the `forEach` in `countNucleotides`: increment the
field for the base when it is one of the five keys, else do nothing. -/
def nucStep (cts : NucCounts) (base : Char) : NucCounts :=
  if base = 'A' then { cts with A := cts.A + 1 }
  else if base = 'T' then { cts with T := cts.T + 1 }
  else if base = 'G' then { cts with G := cts.G + 1 }
  else if base = 'C' then { cts with C := cts.C + 1 }
  else if base = 'U' then { cts with U := cts.U + 1 }
  else cts

/-- `countNucleotides`: tally all five symbols, then `delete counts.T`
when the input contains a `U`, else `delete counts.U`. The result object
is modelled as its key/value pairs in JS insertion order (A,T,G,C,U minus
the deleted key). -/
def countNucleotides (s : String) : List (String × Nat) :=
  let cts := s.data.foldl nucStep ⟨0, 0, 0, 0, 0⟩
  if s.data.contains 'U' then
    [("A", cts.A), ("G", cts.G), ("C", cts.C), ("U", cts.U)]
  else
    [("A", cts.A), ("T", cts.T), ("G", cts.G), ("C", cts.C)]

/-- The characters removed by JS `trim()` (the `\s` class restricted to
ASCII, which is all these inputs use). -/
def isJsSpace (c : Char) : Bool :=
  c = ' ' || c = '\t' || c = '\n' || c = '\r' || c = '\x0b' || c = '\x0c'

/-- JS `trim()`: drop leading and trailing whitespace. -/
def jsTrim (s : String) : String :=
  String.mk (((s.data.dropWhile isJsSpace).reverse.dropWhile isJsSpace).reverse)

/-- `String.prototype.split` generalised to a character predicate.
Splitting keeps empty groups and the empty string splits to one empty
group, as in JS. -/
def splitOnPred (p : Char → Bool) : List Char → List (List Char)
  | [] => [[]]
  | c :: rest =>
    match splitOnPred p rest with
    | g :: gs => if p c then [] :: g :: gs else (c :: g) :: gs
    | [] => [[c]]

/-- JS `str.split(sep)` for a one-character separator. -/
def jsSplitChar (sep : Char) (l : List Char) : List (List Char) :=
  splitOnPred (fun c => c = sep) l

/-- `Array.prototype.join(' ')` on a list of character lists. -/
def jsJoinSpace : List (List Char) → List Char
  | [] => []
  | [g] => g
  | g :: gs => g ++ ' ' :: jsJoinSpace gs

/-- One record produced by `parseFASTA`. -/
structure FastaRecord where
  id : String
  description : String
  sequence : String
deriving Repr, DecidableEq

/-- Header handling of `parseFASTA`: split the line after the `>` on
`' '`, take `headerParts[0] || 'sequence'` as id and
`headerParts.slice(1).join(' ') || ''` as description (`|| ''` is the
identity on the join result, kept implicit). -/
def headerRecord (content : List Char) : FastaRecord :=
  let headerParts := jsSplitChar ' ' content
  let hid := headerParts.headD []
  { id := if hid = [] then "sequence" else String.mk hid
    description := String.mk (jsJoinSpace headerParts.tail)
    sequence := "" }

/-- `line.startsWith('>')`. -/
def startsWithGtChar (line : String) : Bool :=
  match line.data with
  | '>' :: _ => true
  | _ => false

/-- The `forEach` body of `parseFASTA`: state is the optional current
record and the records pushed so far. On a header line the current record
(if any) is pushed and a fresh one is opened from `line.substring(1)`;
otherwise a non-empty line has its validated characters appended to the
current record's sequence. -/
def fastaStep (st : Option FastaRecord × List FastaRecord) (rawLine : String) :
    Option FastaRecord × List FastaRecord :=
  let line := jsTrim rawLine
  if startsWithGtChar line then
    (some (headerRecord line.data.tail),
      match st.1 with
      | some cur => st.2 ++ [cur]
      | none => st.2)
  else
    match st.1 with
    | some cur =>
      if line = "" then st
      else (some { cur with sequence := cur.sequence ++ validateSequence line }, st.2)
    | none => st

/-- The final push of `parseFASTA`: append the still-open record, if any. -/
def pushPending (res : Option FastaRecord × List FastaRecord) : List FastaRecord :=
  match res.1 with
  | some cur => res.2 ++ [cur]
  | none => res.2

/-- `parseFASTA`: trim the input, split into lines, run the line loop,
then push the last current record if any. -/
def parseFASTA (input : String) : List FastaRecord :=
  pushPending
    (((jsSplitChar '\n' (jsTrim input).data).map String.mk).foldl fastaStep (none, []))

/-- One entry pushed by `findStopCodons`. -/
structure StopCodonHit where
  position : Nat
  codon : String
  positionEnd : Nat
deriving Repr, DecidableEq

/-- The loop of `findStopCodons`: scan non-overlapping triplets carrying
the character offset `i`, recording every stop codon with its 1-based
start (`i + 1`) and end (`i + 3`) positions. -/
def findStopCodonsGo : Nat → List Char → List StopCodonHit
  | i, a :: b :: c :: rest =>
    let codon := String.mk [a, b, c]
    if STOP_CODONS.contains codon then
      ⟨i + 1, codon, i + 3⟩ :: findStopCodonsGo (i + 3) rest
    else
      findStopCodonsGo (i + 3) rest
  | _, _ => []

/-- `findStopCodons`: run the scan from offset 0. -/
def findStopCodons (rna : String) : List StopCodonHit :=
  findStopCodonsGo 0 rna.data

/-- Induction principle matching the triplet recursion of the codon
loops: lists shorter than three are base cases. -/
theorem tripleInduction (P : List Char → Prop) (h0 : P []) (h1 : ∀ a, P [a])
    (h2 : ∀ a b, P [a, b])
    (h3 : ∀ a b c rest, P rest → P (a :: b :: c :: rest)) :
    ∀ l, P l
  | [] => h0
  | [a] => h1 a
  | [a, b] => h2 a b
  | a :: b :: c :: rest => h3 a b c rest (tripleInduction P h0 h1 h2 h3 rest)

/-- Splitting off a whole number of stop-free codons from the front of the
RNA lets the codon loop act independently on the two parts. -/
theorem translateLoop_append (rest : List Char) :
    ∀ l : List Char, l.length % 3 = 0 → hasStopTriplet l = false →
      translateLoop (l ++ rest) = translateLoop l ++ translateLoop rest := by
  intro l
  induction l using tripleInduction with
  | h0 => intro _ _; simp [translateLoop]
  | h1 a => intro hlen _; simp at hlen
  | h2 a b => intro hlen _; simp at hlen
  | h3 a b c tl ih =>
    intro hlen hstop
    have hlen3 : tl.length % 3 = 0 := by
      simp [List.length_cons] at hlen
      omega
    simp only [hasStopTriplet, Bool.or_eq_false_iff, beq_eq_false_iff_ne] at hstop
    simp only [List.cons_append, translateLoop]
    cases hc : codonLookup (String.mk [a, b, c]) with
    | none => exact ih hlen3 hstop.2
    | some aa =>
      have haa : ¬ aa = "*" := by
        intro h
        exact hstop.1 (by rw [hc, h])
      simp [haa, ih hlen3 hstop.2]

/-- The codon loop returns nothing once it reaches a stop codon, whatever
follows it. -/
theorem translateLoop_stop (stp : String) (h : stp ∈ STOP_CODONS)
    (rest : List Char) : translateLoop (stp.data ++ rest) = [] := by
  simp [STOP_CODONS] at h
  rcases h with h | h | h <;> subst h
  · have hc : codonLookup (String.mk ['U', 'A', 'A']) = some "*" := by decide
    rw [show ("UAA".data : List Char) = ['U', 'A', 'A'] from rfl]
    simp [translateLoop, hc]
  · have hc : codonLookup (String.mk ['U', 'A', 'G']) = some "*" := by decide
    rw [show ("UAG".data : List Char) = ['U', 'A', 'G'] from rfl]
    simp [translateLoop, hc]
  · have hc : codonLookup (String.mk ['U', 'G', 'A']) = some "*" := by decide
    rw [show ("UGA".data : List Char) = ['U', 'G', 'A'] from rfl]
    simp [translateLoop, hc]

end Bio

namespace Bio

/-- Claim C1: the claim says the codon table has exactly 64 entries (61
sense + 3 stop) covering every triplet over the alphabet A,U,G,C. The
source literal writes the key GUG twice and omits GUC, so the object has
only 63 distinct keys and the triplet GUC — all of whose characters are in
the alphabet — is not covered: `CODON_TABLE['GUC']` is `undefined`. -/
theorem codonTable_63_keys_no_GUC :
    (CODON_TABLE.map Prod.fst).dedup.length = 63 ∧
    codonLookup "GUC" = none ∧
    ("GUC".data.all (fun c => c = 'A' || c = 'U' || c = 'G' || c = 'C')) = true ∧
    (CODON_TABLE.map Prod.fst).count "GUG" = 2 := by decide

/-- Claim C2: translate consumes the RNA in non-overlapping triplets from
offset 0 and halts at the first stop codon, leaving everything after it
unprocessed: with a stop codon after a stop-free whole-codon prefix, the
result is exactly the translation of the prefix, for every suffix.
Moreover the documented example translates to MVHLTPEEK. -/
theorem translate_halts_at_first_stop (pre rest : List Char) (stp : String)
    (h1 : stp ∈ STOP_CODONS) (h2 : pre.length % 3 = 0)
    (h3 : hasStopTriplet pre = false) :
    translateLoop (pre ++ stp.data ++ rest) = translateLoop pre ∧
    translate "AUGGUGCACCUGACUCCUGAGGAGAAGUAG" = "MVHLTPEEK" := by
  refine ⟨?_, by decide⟩
  rw [List.append_assoc, translateLoop_append (stp.data ++ rest) pre h2 h3,
    translateLoop_stop stp h1 rest, List.append_nil]

/-- Witness instantiating C2 at a concrete prefix, stop codon and suffix. -/
theorem translate_halts_at_first_stop_witness :
    translateLoop ("AUG".data ++ "UAA".data ++ "GGG".data) =
      translateLoop "AUG".data ∧
    translate "AUGGUGCACCUGACUCCUGAGGAGAAGUAG" = "MVHLTPEEK" :=
  translate_halts_at_first_stop "AUG".data "GGG".data "UAA"
    (by decide) (by decide) (by decide)

/-- Claim C3: on every RNA input whose codon loop produces no amino-acid
letter, translate returns the sentinel string, which is not the empty
string. -/
theorem translate_sentinel_on_no_residues (rna : String)
    (h : translateLoop rna.data = []) :
    translate rna = "No protein found" ∧ translate rna ≠ "" := by
  constructor
  · simp [translate, h]
  · simp [translate, h]

/-- Witness for C3: a stop codon in first position produces no residues,
and translate returns the sentinel. -/
theorem translate_sentinel_on_no_residues_witness :
    translate "UAAGGG" = "No protein found" ∧ translate "UAAGGG" ≠ "" :=
  translate_sentinel_on_no_residues "UAAGGG" (by decide)

/-- List-level form of C4: on lists over {A,T,G,C} the complement map
preserves length and is an involution. -/
theorem complement_list_facts (l : List Char)
    (h : ∀ c ∈ l, c = 'A' ∨ c = 'T' ∨ c = 'G' ∨ c = 'C') :
    (l.flatMap (fun c => (complementBase c).data)).length = l.length ∧
    ((l.flatMap (fun c => (complementBase c).data)).flatMap
      (fun c => (complementBase c).data)) = l := by
  induction l with
  | nil => simp
  | cons c tl ih =>
    have htl : ∀ x ∈ tl, x = 'A' ∨ x = 'T' ∨ x = 'G' ∨ x = 'C' :=
      fun x hx => h x (List.mem_cons_of_mem c hx)
    have hc := h c (List.mem_cons_self c tl)
    have eA : (complementBase 'A').data = ['T'] := by decide
    have eT : (complementBase 'T').data = ['A'] := by decide
    have eG : (complementBase 'G').data = ['C'] := by decide
    have eC : (complementBase 'C').data = ['G'] := by decide
    rcases hc with h1 | h1 | h1 | h1 <;> subst h1 <;>
      simp [eA, eT, eG, eC, (ih htl).1, (ih htl).2]

/-- Claim C4: on a validated DNA sequence (characters all in {A,T,G,C}),
getComplement preserves the length and is an involution. -/
theorem getComplement_length_involution (s : String)
    (h : ∀ c ∈ s.data, c = 'A' ∨ c = 'T' ∨ c = 'G' ∨ c = 'C') :
    (getComplement s).length = s.length ∧
    getComplement (getComplement s) = s := by
  have hl := complement_list_facts s.data h
  constructor
  · exact hl.1
  · show String.mk ((s.data.flatMap (fun c => (complementBase c).data)).flatMap
      (fun c => (complementBase c).data)) = s
    rw [hl.2]

/-- Witness for C4 at the validated sequence ATGC. -/
theorem getComplement_length_involution_witness :
    (getComplement "ATGC").length = ("ATGC" : String).length ∧
    getComplement (getComplement "ATGC") = "ATGC" :=
  getComplement_length_involution "ATGC" (by decide)

/-- Characters accepted by the validation filter are exactly A, T, G, C,
and the per-character uppercase map fixes them. -/
theorem isACGTChar_fixed (c : Char) (h : isACGTChar c = true) :
    (c = 'A' ∨ c = 'T' ∨ c = 'G' ∨ c = 'C') ∧ jsToUpper c = c := by
  simp [isACGTChar] at h
  rcases h with ((h1 | h1) | h1) | h1 <;> subst h1 <;>
    exact ⟨by simp, by decide⟩

/-- Claim C5: validateSequence is idempotent on every input string and
its output contains only characters in {A,T,G,C}. -/
theorem validateSequence_idempotent (s : String) :
    validateSequence (validateSequence s) = validateSequence s ∧
    ∀ c ∈ (validateSequence s).data, c = 'A' ∨ c = 'T' ∨ c = 'G' ∨ c = 'C' := by
  have hmem : ∀ c ∈ ((s.data.map jsToUpper).filter isACGTChar),
      isACGTChar c = true := fun c hc => List.of_mem_filter hc
  constructor
  · show String.mk ((((s.data.map jsToUpper).filter isACGTChar).map
      jsToUpper).filter isACGTChar) = validateSequence s
    have hmap : ((s.data.map jsToUpper).filter isACGTChar).map jsToUpper =
        (s.data.map jsToUpper).filter isACGTChar :=
      (List.map_congr_left fun c hc =>
        (isACGTChar_fixed c (hmem c hc)).2).trans (List.map_id _)
    rw [hmap, List.filter_eq_self.mpr hmem]
    rfl
  · exact fun c hc => (isACGTChar_fixed c (hmem c hc)).1

/-- The stop-codon scan distributes over an append after a whole number
of codons, shifting the offset: it never halts early. -/
theorem findStopCodonsGo_append (rest : List Char) :
    ∀ l : List Char, l.length % 3 = 0 → ∀ i : Nat,
      findStopCodonsGo i (l ++ rest) =
        findStopCodonsGo i l ++ findStopCodonsGo (i + l.length) rest := by
  intro l
  induction l using tripleInduction with
  | h0 => intro _ i; simp [findStopCodonsGo]
  | h1 a => intro hlen; simp at hlen
  | h2 a b => intro hlen; simp at hlen
  | h3 a b c tl ih =>
    intro hlen i
    have hlen3 : tl.length % 3 = 0 := by
      simp [List.length_cons] at hlen
      omega
    have hshift : i + (a :: b :: c :: tl).length = (i + 3) + tl.length := by
      simp [List.length_cons]
      omega
    simp only [List.cons_append, findStopCodonsGo, hshift]
    by_cases hstop : String.mk [a, b, c] ∈ STOP_CODONS <;>
      simp [hstop, ih hlen3 (i + 3)]

/-- Claim C6: findStopCodons scans every non-overlapping triplet from
offset 0 without halting at a stop codon: after any whole number of
codons the scan continues on the remainder at the shifted offset, and on
any input beginning with UAAUAG it reports the hits (1,3) and (4,6) and
then keeps scanning — while translate on UAAUAG halts at once and yields
the sentinel. -/
theorem findStopCodons_enumerates_all (i : Nat) (pre rest : List Char)
    (h : pre.length % 3 = 0) :
    findStopCodonsGo i (pre ++ rest) =
      findStopCodonsGo i pre ++ findStopCodonsGo (i + pre.length) rest ∧
    findStopCodons (String.mk ("UAAUAG".data ++ rest)) =
      ⟨1, "UAA", 3⟩ :: ⟨4, "UAG", 6⟩ :: findStopCodonsGo 6 rest ∧
    translate "UAAUAG" = "No protein found" := by
  refine ⟨findStopCodonsGo_append rest pre h i, ?_, by decide⟩
  show findStopCodonsGo 0 ("UAAUAG".data ++ rest) = _
  rw [findStopCodonsGo_append rest "UAAUAG".data (by decide) 0]
  have h6 : findStopCodonsGo 0 "UAAUAG".data =
      [⟨1, "UAA", 3⟩, ⟨4, "UAG", 6⟩] := by decide
  rw [h6]
  rfl

/-- Witness instantiating C6 with a stop codon after the UAAUAG block. -/
theorem findStopCodons_enumerates_all_witness :
    findStopCodonsGo 0 ("UAAUAG".data ++ "UGA".data) =
      findStopCodonsGo 0 "UAAUAG".data ++
        findStopCodonsGo (0 + ("UAAUAG".data : List Char).length) "UGA".data ∧
    findStopCodons (String.mk ("UAAUAG".data ++ "UGA".data)) =
      ⟨1, "UAA", 3⟩ :: ⟨4, "UAG", 6⟩ :: findStopCodonsGo 6 "UGA".data ∧
    translate "UAAUAG" = "No protein found" :=
  findStopCodons_enumerates_all 0 "UAAUAG".data "UGA".data (by decide)

/-- Follows the spec's words for the header rule, as the refinement
target of the parseFASTA header claim: split the header content on
whitespace into (non-empty) tokens, take the first token as the
identifier — placeholder when there is none — and join the remaining
tokens with single spaces as the description. -/
def specTokens (l : List Char) : List String :=
  ((splitOnPred isJsSpace l).filter (fun g => !g.isEmpty)).map String.mk

/-- Spec-words header record built from `specTokens` (see `specTokens`). -/
def specHeaderRecord (content : List Char) : FastaRecord :=
  match specTokens content with
  | [] => { id := "sequence", description := "", sequence := "" }
  | t :: ts => { id := t, description := String.intercalate " " ts, sequence := "" }

/-- Splitting never produces an empty list of groups. -/
theorem splitOnPred_ne_nil (p : Char → Bool) (l : List Char) :
    splitOnPred p l ≠ [] := by
  induction l with
  | nil => simp [splitOnPred]
  | cons c rest ih =>
    simp only [splitOnPred]
    cases h : splitOnPred p rest with
    | nil => exact absurd h ih
    | cons g gs => by_cases hc : p c <;> simp [hc]

/-- A list without separators splits into the single group it is. -/
theorem splitOnPred_no_sep (p : Char → Bool) (l : List Char)
    (h : ∀ c ∈ l, p c = false) : splitOnPred p l = [l] := by
  induction l with
  | nil => rfl
  | cons c rest ih =>
    have hc : p c = false := h c (List.mem_cons_self c rest)
    have hrest := ih fun x hx => h x (List.mem_cons_of_mem c hx)
    simp [splitOnPred, hrest, hc]

/-- Splitting on the space character after a space-free prefix peels off
the prefix as the first group. -/
theorem jsSplitChar_space_append (b : List Char) :
    ∀ a : List Char, ' ' ∉ a →
      jsSplitChar ' ' (a ++ ' ' :: b) = a :: jsSplitChar ' ' b := by
  intro a
  induction a with
  | nil =>
    intro _
    show splitOnPred _ (' ' :: b) = [] :: _
    simp only [splitOnPred]
    cases h : splitOnPred (fun c => c = ' ') b with
    | nil => exact absurd h (splitOnPred_ne_nil _ b)
    | cons g gs =>
      simp
      exact h.symm
  | cons c a ih =>
    intro ha
    have hc : ¬ c = ' ' := fun h => ha (h ▸ List.mem_cons_self c a)
    have ha2 : ' ' ∉ a := fun h => ha (List.mem_cons_of_mem c h)
    show splitOnPred _ (c :: (a ++ ' ' :: b)) = _
    simp only [splitOnPred]
    rw [show splitOnPred (fun x => decide (x = ' ')) (a ++ ' ' :: b) =
      a :: jsSplitChar ' ' b from ih ha2]
    simp [hc]

/-- Rejoining the space-split groups with single spaces reconstructs the
original character list (consecutive spaces yield empty groups, so
nothing is lost). -/
theorem jsJoinSpace_split (b : List Char) :
    jsJoinSpace (jsSplitChar ' ' b) = b := by
  induction b with
  | nil => rfl
  | cons c rest ih =>
    show jsJoinSpace (splitOnPred _ (c :: rest)) = _
    simp only [splitOnPred]
    cases h : splitOnPred (fun x => decide (x = ' ')) rest with
    | nil => exact absurd h (splitOnPred_ne_nil _ rest)
    | cons g gs =>
      have hrest : jsJoinSpace (g :: gs) = rest := by
        rw [← h]
        exact ih
      simp only [decide_eq_true_eq]
      by_cases hc : c = ' '
      · subst hc
        rw [if_pos rfl]
        calc jsJoinSpace ([] :: g :: gs) = ' ' :: jsJoinSpace (g :: gs) := rfl
          _ = ' ' :: rest := by rw [hrest]
      · rw [if_neg hc]
        cases gs with
        | nil =>
          have hg : g = rest := hrest
          rw [show jsJoinSpace [c :: g] = c :: g from rfl, hg]
        | cons g2 gs2 =>
          calc jsJoinSpace ((c :: g) :: g2 :: gs2)
              = c :: jsJoinSpace (g :: g2 :: gs2) := rfl
            _ = c :: rest := by rw [hrest]

/-- Claim C7 counterexample: the header is split on the space character,
not on general whitespace, and rejoining preserves consecutive spaces.
On the header `s1  desc` (two spaces) parseFASTA produces the description
" desc", while the spec-words rule (whitespace tokens rejoined with
single spaces) produces "desc"; the records differ. -/
theorem parseFASTA_header_whitespace_cex :
    parseFASTA ">s1  desc\nATGC" = [⟨"s1", " desc", "ATGC"⟩] ∧
    specHeaderRecord ("s1  desc" : String).data = ⟨"s1", "desc", ""⟩ ∧
    (⟨"s1", " desc", "ATGC"⟩ : FastaRecord) ≠ ⟨"s1", "desc", "ATGC"⟩ := by
  decide

/-- Claim C7 (amended): parseFASTA splits the header after the `>` on
single space characters; the identifier is the first field, with the
placeholder "sequence" substituted when that field is empty, and the
description is the remaining fields rejoined with single spaces — which
is exactly the remainder of the header after the first space, consecutive
spaces preserved as empty fields. A header without a space has an empty
description. The claim's concrete example holds as stated. -/
theorem parseFASTA_header_semantics (a b : List Char) (ha : ' ' ∉ a) :
    headerRecord (a ++ ' ' :: b) =
      ⟨if a = [] then "sequence" else String.mk a, String.mk b, ""⟩ ∧
    headerRecord a =
      ⟨if a = [] then "sequence" else String.mk a, "", ""⟩ ∧
    parseFASTA ">s1 desc\nATGC\n>s2\nGGCC" =
      [⟨"s1", "desc", "ATGC"⟩, ⟨"s2", "", "GGCC"⟩] := by
  refine ⟨?_, ?_, by decide⟩
  · show (let headerParts := jsSplitChar ' ' (a ++ ' ' :: b)
      let hid := headerParts.headD []
      ({ id := if hid = [] then "sequence" else String.mk hid
         description := String.mk (jsJoinSpace headerParts.tail)
         sequence := "" } : FastaRecord)) = _
    rw [jsSplitChar_space_append b a ha]
    simp only [List.headD_cons, List.tail_cons]
    rw [jsJoinSpace_split b]
  · show (let headerParts := jsSplitChar ' ' a
      let hid := headerParts.headD []
      ({ id := if hid = [] then "sequence" else String.mk hid
         description := String.mk (jsJoinSpace headerParts.tail)
         sequence := "" } : FastaRecord)) = _
    have hsplit : jsSplitChar ' ' a = [a] :=
      splitOnPred_no_sep _ a fun c hc => by
        simp only [decide_eq_false_iff_not]
        exact fun h => ha (h ▸ hc)
    rw [hsplit]
    rfl

/-- Witness instantiating the amended C7 at a concrete header. -/
theorem parseFASTA_header_semantics_witness :
    headerRecord (("s1" : String).data ++ ' ' :: ("a b" : String).data) =
      ⟨if ("s1" : String).data = [] then "sequence"
        else String.mk ("s1" : String).data, String.mk ("a b" : String).data, ""⟩ ∧
    headerRecord ("s1" : String).data =
      ⟨if ("s1" : String).data = [] then "sequence"
        else String.mk ("s1" : String).data, "", ""⟩ ∧
    parseFASTA ">s1 desc\nATGC\n>s2\nGGCC" =
      [⟨"s1", "desc", "ATGC"⟩, ⟨"s2", "", "GGCC"⟩] :=
  parseFASTA_header_semantics ("s1" : String).data ("a b" : String).data
    (by decide)

/-- Whether a raw line is recognised as a record header by `parseFASTA`
(after the per-line trim). -/
def isHeaderLine (rawLine : String) : Bool :=
  startsWithGtChar (jsTrim rawLine)

/-- 1 when a record is still open, 0 otherwise. -/
def pendCount : Option FastaRecord → Nat
  | some _ => 1
  | none => 0

/-- Each line-loop step increases the count of records (pushed plus
pending) by one exactly on header lines: no record is ever discarded. -/
theorem fastaStep_count (st : Option FastaRecord × List FastaRecord)
    (line : String) :
    (fastaStep st line).2.length + pendCount (fastaStep st line).1 =
      st.2.length + pendCount st.1 +
        (if isHeaderLine line then 1 else 0) := by
  obtain ⟨cur, acc⟩ := st
  by_cases h : startsWithGtChar (jsTrim line) = true
  · cases cur <;>
      simp [fastaStep, isHeaderLine, h, pendCount]
  · cases cur with
    | none => simp [fastaStep, isHeaderLine, h, pendCount]
    | some c =>
      have h0 : startsWithGtChar "" = false := by decide
      by_cases he : jsTrim line = "" <;>
        simp [fastaStep, isHeaderLine, h, he, h0, pendCount]

/-- Over the whole line loop, the number of records (pushed plus pending)
is the number of header lines. -/
theorem fastaFold_count (lines : List String) :
    ∀ st : Option FastaRecord × List FastaRecord,
      (lines.foldl fastaStep st).2.length +
          pendCount (lines.foldl fastaStep st).1 =
        st.2.length + pendCount st.1 +
          (lines.filter isHeaderLine).length := by
  induction lines with
  | nil => intro st; simp
  | cons line rest ih =>
    intro st
    rw [List.foldl_cons, ih (fastaStep st line), fastaStep_count st line,
      List.filter_cons]
    by_cases h : isHeaderLine line = true <;> (simp [h]; try omega)

/-- The final push turns the pending record into a counted one. -/
theorem pushPending_length (res : Option FastaRecord × List FastaRecord) :
    (pushPending res).length = res.2.length + pendCount res.1 := by
  obtain ⟨cur, acc⟩ := res
  cases cur <;> simp [pushPending, pendCount]

/-- Claim C8: parseFASTA emits one record per header line, whether or not
any sequence characters accumulate: the number of records equals the
number of trimmed lines starting with a greater-than sign. In
particular a header directly followed by another header yields a record
whose sequence field is empty — the parser itself discards nothing. -/
theorem parseFASTA_emits_every_header (input : String) :
    (parseFASTA input).length =
      (((jsSplitChar '\n' (jsTrim input).data).map String.mk).filter
        isHeaderLine).length ∧
    parseFASTA ">h only\n>h2\nAC" = [⟨"h", "only", ""⟩, ⟨"h2", "", "AC"⟩] := by
  refine ⟨?_, by decide⟩
  unfold parseFASTA
  rw [pushPending_length,
    fastaFold_count (((jsSplitChar '\n' (jsTrim input).data).map String.mk))
      (none, [])]
  simp [pendCount]

/-- The counting loop tallies the five keyed symbols: folding `nucStep`
adds the number of occurrences of each of A, T, G, C, U to the
corresponding field. -/
theorem nucFold (l : List Char) :
    ∀ cts : NucCounts,
      l.foldl nucStep cts =
        ⟨cts.A + l.count 'A', cts.T + l.count 'T', cts.G + l.count 'G',
         cts.C + l.count 'C', cts.U + l.count 'U'⟩ := by
  induction l with
  | nil => intro cts; simp
  | cons c tl ih =>
    intro cts
    rw [List.foldl_cons, ih (nucStep cts c)]
    by_cases hA : c = 'A'
    · subst hA
      simp [nucStep, List.count_cons, NucCounts.mk.injEq]
      omega
    by_cases hT : c = 'T'
    · subst hT
      simp [nucStep, List.count_cons, NucCounts.mk.injEq]
      omega
    by_cases hG : c = 'G'
    · subst hG
      simp [nucStep, List.count_cons, NucCounts.mk.injEq]
      omega
    by_cases hC : c = 'C'
    · subst hC
      simp [nucStep, List.count_cons, NucCounts.mk.injEq]
      omega
    by_cases hU : c = 'U'
    · subst hU
      simp [nucStep, List.count_cons, NucCounts.mk.injEq]
      omega
    simp [nucStep, hA, hT, hG, hC, hU, List.count_cons, NucCounts.mk.injEq,
      Ne.symm hA, Ne.symm hT, Ne.symm hG, Ne.symm hC, Ne.symm hU]

/-- Claim C9: countNucleotides tallies all five symbols and then drops
exactly one key: when the input contains a U the result lists the keys
A, G, C, U (no T key); otherwise it lists A, T, G, C (no U key). The
values are the occurrence counts, and the claim's ATGC example holds. -/
theorem countNucleotides_drops_one_key (s : String) :
    (if 'U' ∈ s.data then
      countNucleotides s =
        [("A", s.data.count 'A'), ("G", s.data.count 'G'),
         ("C", s.data.count 'C'), ("U", s.data.count 'U')]
    else
      countNucleotides s =
        [("A", s.data.count 'A'), ("T", s.data.count 'T'),
         ("G", s.data.count 'G'), ("C", s.data.count 'C')]) ∧
    countNucleotides "ATGC" = [("A", 1), ("T", 1), ("G", 1), ("C", 1)] := by
  refine ⟨?_, by decide⟩
  unfold countNucleotides
  rw [nucFold s.data ⟨0, 0, 0, 0, 0⟩]
  by_cases h : 'U' ∈ s.data <;>
    simp [h, List.contains]

/-- The amino-acid letters of the codon table's sense (non-stop) entries,
with multiplicity. -/
def senseValues : List String :=
  (CODON_TABLE.filter (fun p => !(p.2 == "*"))).map Prod.snd

/-- A successful association-list lookup exhibits a member pair. -/
theorem lookup_mem {k v : String} :
    ∀ l : List (String × String), l.lookup k = some v → (k, v) ∈ l := by
  intro l
  induction l with
  | nil => intro h; simp [List.lookup] at h
  | cons p tl ih =>
    obtain ⟨pk, pv⟩ := p
    intro h
    by_cases hk : (k == pk) = true
    · have hkeq : k = pk := eq_of_beq hk
      simp only [List.lookup, hk, if_true] at h
      have hv : pv = v := by injection h
      rw [hkeq, ← hv]
      exact List.mem_cons_self _ _
    · simp only [List.lookup, hk, if_false] at h
      exact List.mem_cons_of_mem _ (ih h)

/-- Every value in the codon table is a single character. -/
theorem codonTable_values_single : ∀ p ∈ CODON_TABLE, (p.2).length = 1 := by
  decide

/-- A non-stop table entry contributes its letter to the sense values. -/
theorem mem_senseValues_of (kv : String × String) (hmem : kv ∈ CODON_TABLE)
    (hne : kv.2 ≠ "*") : kv.2 ∈ senseValues :=
  List.mem_map.mpr ⟨kv, List.mem_filter.mpr ⟨hmem, by simpa using hne⟩, rfl⟩

/-- Every character emitted by the codon loop is a sense letter of the
table; the stop symbol is never emitted. -/
theorem translateLoop_chars :
    ∀ l : List Char, ∀ c ∈ translateLoop l,
      String.mk [c] ∈ senseValues ∧ c ≠ '*' := by
  intro l
  induction l using tripleInduction with
  | h0 => simp [translateLoop]
  | h1 a =>
    intro c hc
    rw [show translateLoop [a] = [] from rfl] at hc
    exact absurd hc (List.not_mem_nil c)
  | h2 a b =>
    intro c hc
    rw [show translateLoop [a, b] = [] from rfl] at hc
    exact absurd hc (List.not_mem_nil c)
  | h3 a b c tl ih =>
    intro x
    simp only [translateLoop]
    cases hlk : codonLookup (String.mk [a, b, c]) with
    | none => exact ih x
    | some aa =>
      dsimp only
      by_cases haa : aa = "*"
      · rw [if_pos haa]
        intro hx
        exact absurd hx (List.not_mem_nil x)
      · rw [if_neg haa]
        intro hx
        rcases List.mem_append.mp hx with hx1 | hx2
        · have hpair : (String.mk [a, b, c], aa) ∈ CODON_TABLE :=
            List.mem_reverse.mp (lookup_mem _ hlk)
          have hlen : aa.length = 1 := codonTable_values_single _ hpair
          obtain ⟨y, hy⟩ := List.length_eq_one.mp hlen
          have hxy : x = y := by
            rw [hy] at hx1
            exact List.mem_singleton.mp hx1
          have hdata : aa = String.mk [x] := by
            rw [hxy]
            exact congrArg String.mk hy
          constructor
          · rw [← hdata]
            exact mem_senseValues_of _ hpair haa
          · intro hstar
            apply haa
            rw [hdata, hstar]
        · exact ih x hx2

/-- Claim C10: whenever translate does not return the sentinel, every
character of its output is one of the 20 single-letter amino-acid codes
of the table's sense entries — there are exactly 20 distinct ones — and
the stop symbol never appears. -/
theorem translate_output_only_sense (rna : String)
    (h : translate rna ≠ "No protein found") :
    (∀ c ∈ (translate rna).data, String.mk [c] ∈ senseValues ∧ c ≠ '*') ∧
    senseValues.dedup.length = 20 := by
  refine ⟨?_, by decide⟩
  intro c hc
  have htr : translate rna = String.mk (translateLoop rna.data) := by
    by_cases hp : String.mk (translateLoop rna.data) = ""
    · exact absurd (by simp [translate, hp]) h
    · simp [translate, hp]
  rw [htr] at hc
  exact translateLoop_chars rna.data c hc

/-- Witness applying C10 to the single codon AUG, whose output is M. -/
theorem translate_output_only_sense_witness :
    (String.mk ['M'] ∈ senseValues ∧ 'M' ≠ '*') ∧
    senseValues.dedup.length = 20 :=
  ⟨(translate_output_only_sense "AUG" (by decide)).1 'M' (by decide),
   (translate_output_only_sense "AUG" (by decide)).2⟩

end Bio

/-- Sanity checks of the embedding on concrete inputs. -/
theorem embedding_behaviour_checks :
    Bio.translate "AUGGUGCACCUGACUCCUGAGGAGAAGUAG" = "MVHLTPEEK" ∧
    Bio.codonLookup "GUC" = none ∧
    (Bio.CODON_TABLE.map Prod.fst).dedup.length = 63 ∧
    Bio.countNucleotides "ATGC" = [("A", 1), ("T", 1), ("G", 1), ("C", 1)] ∧
    Bio.validateSequence "a t-gcX" = "ATGC" ∧
    Bio.getComplement "ATGC" = "TACG" := by decide

/-- Further sanity checks: FASTA parsing and stop-codon scanning. -/
theorem embedding_behaviour_checks2 :
    Bio.parseFASTA ">s1 desc\nATGC\n>s2\nGGCC" =
      [⟨"s1", "desc", "ATGC"⟩, ⟨"s2", "", "GGCC"⟩] ∧
    Bio.parseFASTA ">s1  desc\nATGC" = [⟨"s1", " desc", "ATGC"⟩] ∧
    Bio.parseFASTA ">h only\n>h2\nAC" = [⟨"h", "only", ""⟩, ⟨"h2", "", "AC"⟩] ∧
    Bio.findStopCodons "UAAUAGGGG" =
      [⟨1, "UAA", 3⟩, ⟨4, "UAG", 6⟩] ∧
    Bio.parseFASTA ">" = [⟨"sequence", "", ""⟩] ∧
    Bio.translate "UAAUAG" = "No protein found" := by decide
